import Mathlib

/-
Verification of the dining-philosophers simulator (src/main.rs).

The development shallowly embeds the program:

* `Event` mirrors the Rust `Event` enum.
* `analyzeStep` / `analyze` mirror the single indexed pass of `fn analyze`
  over the event log (the Rust `HashSet` of currently-eating tuples is
  modelled as a duplicate-free list with `insertNew` / `List.erase`, the
  `HashMap` of feed counts as a total function with default 0).
* The concurrent simulation (`main`'s scoped threads running
  `think` / `is_hungry` / `try_to_eat` over `try_lock`ed chopstick mutexes)
  is modelled as a small-step interleaving machine on `Config`.  Each atomic
  action of a thread (one `try_lock`, one event append under the log mutex,
  one counter increment, one guard drop) is one machine step; a `runSim`
  script chooses an arbitrary interleaving, arbitrary hunger-coin outcomes
  and an arbitrary stopping point, which over-approximates the schedules,
  random choices and deadline checks of the real program.  Note that in the
  source both `try_lock` calls are issued before either result is examined,
  and a `std::sync::Mutex` that is already locked (even by the same thread)
  answers `try_lock` with `Err(WouldBlock)`; the machine reproduces both.
* `tryToEatTrace` / `thinkTrace` give the sequential trace of observable
  actions of one `try_to_eat` / `think` call, including the randomized
  sleep drawn by `rand_sleep_duration` (`random_range(1..=max)` is modelled
  as a seed-indexed choice ranging over exactly [1, max]; `none` models the
  panic on the empty range `1..=0`).
* `loopIter` / `actorRun` mirror the per-thread driver loop in `main`,
  including the `now.elapsed()` error branch that logs and breaks.
-/

namespace DiningPhilosophers

/-- Mirrors the Rust `enum Event`. -/
inductive Event where
  | thinking (p : ℕ)
  | eating (p l r : ℕ)
  | finishedEating (p l r : ℕ)
deriving DecidableEq, Repr

/-- State carried by `fn analyze` across its single pass over the log. -/
structure AnalyzerState where
  currentlyEating : List (ℕ × ℕ × ℕ)
  currentlyThinking : List ℕ
  discrepancies : List (ℕ × ℕ × ℕ)
  timesFed : ℕ → ℕ

/-- Set-style insert, modelling `HashSet::insert` (no duplicates). -/
def insertNew {α : Type} [DecidableEq α] (x : α) (l : List α) : List α :=
  if x ∈ l then l else l ++ [x]

/-- The overlap test of `fn analyze`:
`left == eating_left || left == eating_right || right == eating_left || right == eating_right`. -/
def overlapB (l r l2 r2 : ℕ) : Bool :=
  (l == l2) || (l == r2) || (r == l2) || (r == r2)

/-- One iteration of the `for (i, e) in events.iter().enumerate()` loop of
`fn analyze`. -/
def analyzeStep (s : AnalyzerState) (i : ℕ) (e : Event) : AnalyzerState :=
  match e with
  | .thinking v =>
      { s with currentlyThinking := insertNew v s.currentlyThinking }
  | .eating v l r =>
      { s with
        discrepancies := s.discrepancies ++
          (s.currentlyEating.filter (fun t => overlapB l r t.2.1 t.2.2)).map
            (fun t => (i, v, t.1)),
        currentlyThinking := s.currentlyThinking.erase v,
        currentlyEating := insertNew (v, l, r) s.currentlyEating }
  | .finishedEating v l r =>
      { s with
        currentlyEating := s.currentlyEating.erase (v, l, r),
        timesFed := fun x => if x = v then s.timesFed x + 1 else s.timesFed x }

/-- The empty analyzer state at the top of `fn analyze`. -/
def initAnalyzer : AnalyzerState :=
  { currentlyEating := [], currentlyThinking := [], discrepancies := [],
    timesFed := fun _ => 0 }

/-- Indexed left fold implementing the enumerated loop of `fn analyze`. -/
def analyzeFrom (i : ℕ) (s : AnalyzerState) : List Event → AnalyzerState
  | [] => s
  | e :: es => analyzeFrom (i + 1) (analyzeStep s i e) es

/-- The state of `fn analyze` after its pass over the whole log. -/
def analyze (events : List Event) : AnalyzerState :=
  analyzeFrom 0 initAnalyzer events

/-- The per-philosopher lines printed by `fn analyze`:
`times_fed.get(&i).or(Some(&0)).unwrap()` for `i in 0..n`. -/
def reportCounts (events : List Event) (n : ℕ) : List (ℕ × ℕ) :=
  (List.range n).map (fun i => (i, (analyze events).timesFed i))

/-- The verdict of `fn analyze`: `discrepancies.len() == 0` selects the
printout of the line declaring the simulation correct. -/
def simulationCorrect (events : List Event) : Bool :=
  (analyze events).discrepancies.length == 0

/-- Recognizes `Eating` events of philosopher `p`. -/
def isEatingOf (p : ℕ) : Event → Bool
  | .eating q _ _ => q == p
  | _ => false

/-- Recognizes `FinishedEating` events of philosopher `p`. -/
def isFinishedOf (p : ℕ) : Event → Bool
  | .finishedEating q _ _ => q == p
  | _ => false

/-- Recognizes any `Eating` event. -/
def isEatingEv : Event → Bool
  | .eating _ _ _ => true
  | _ => false

/-- Number of `Eating(p, _, _)` events in a log. -/
def countEating (l : List Event) (p : ℕ) : ℕ :=
  (l.filter (isEatingOf p)).length

/-- Number of `FinishedEating(p, _, _)` events in a log. -/
def countFinished (l : List Event) (p : ℕ) : ℕ :=
  (l.filter (isFinishedOf p)).length

/-- Philosopher `q`'s eating interval on resources `(l2, r2)` is open just
before log position `i`: some earlier `Eating(q, l2, r2)` has no matching
`FinishedEating(q, l2, r2)` strictly before `i`. -/
def openAt (log : List Event) (i : ℕ) (q l2 r2 : ℕ) : Prop :=
  ∃ j, j < i ∧ log.get? j = some (.eating q l2 r2) ∧
    ∀ k, j < k → k < i → log.get? k ≠ some (.finishedEating q l2 r2)

/-- Program counter of one philosopher thread inside its cycle.  `resting`
covers thinking / deciding / the top of the loop; the remaining phases are
the successive atomic points of one `try_to_eat` call: after the first
`try_lock`, after the second `try_lock`, after the `Eating` append, after
the `times_fed` increment, after the `FinishedEating` append, and after the
right-guard drop. -/
inductive Phase where
  | resting
  | triedLeft (gl : Bool)
  | triedBoth (gl gr : Bool)
  | eatingPh
  | fedDone
  | relRight
  | relLeft
deriving DecidableEq, Repr

/-- Global state of the interleaved simulation: chopstick lock owners, the
shared event log, the per-philosopher `times_fed` counters, and each
thread's program counter. -/
structure Config where
  locks : ℕ → Option ℕ
  events : List Event
  fed : ℕ → ℕ
  phase : ℕ → Phase

/-- Pointwise function update. -/
def fupd {α : Type} (f : ℕ → α) (k : ℕ) (v : α) : ℕ → α :=
  fun i => if i = k then v else f i

/-- Chopstick index bound as philosopher `i`'s left, from `main`:
`chopsticks[(n - 1 + i) % n]`. -/
def leftChop (n i : ℕ) : ℕ := (n - 1 + i) % n

/-- Chopstick index bound as philosopher `i`'s right, from `main`:
`chopsticks[i]` (the table size is taken for uniformity with `leftChop`). -/
def rightChop (_n i : ℕ) : ℕ := i

/-- A scheduled action: append a `Thinking` event (the observable part of
`think`), or advance the philosopher's `try_to_eat` state machine by one
atomic step. -/
inductive Act where
  | think
  | go
deriving DecidableEq, Repr

/-- The log append performed by `Philosopher::think` (the sleep has no
shared-state effect). A philosopher only thinks from the top of its loop. -/
def stepThink (n : ℕ) (c : Config) (p : ℕ) : Config :=
  if p < n ∧ c.phase p = .resting then
    { c with events := c.events ++ [.thinking p] }
  else c

/-- One atomic step of `Philosopher::try_to_eat` (and of the tail of
`Philosopher::eat`) for philosopher `p`, as dictated by its phase:

* `resting`: `self.left_chopstick.try_lock()` — succeeds iff the lock is
  free, recording the outcome;
* `triedLeft`: `self.right_chopstick.try_lock()` — issued unconditionally
  in the source, before either result is inspected;
* `triedBoth`: inspect the two stored results.  Both `Ok`: push
  `Event::Eating(id, left_id, right_id)` (the sleep that follows has no
  shared-state effect).  Only left `Ok`: its guard is dropped at the end of
  the outer `if let` scope.  Only right `Ok`: its guard is dropped with the
  discarded `locked_right` at the end of the call.  Neither: nothing held;
* `eatingPh`: `*t += 1` on `times_fed`;
* `fedDone`: push `Event::FinishedEating(id, left_id, right_id)`;
* `relRight`: `drop(right_guard)`;
* `relLeft`: `drop(left_guard)`. -/
def stepGo (n : ℕ) (c : Config) (p : ℕ) : Config :=
  if p < n then
    match c.phase p with
    | .resting =>
        match c.locks (leftChop n p) with
        | none =>
            { c with locks := fupd c.locks (leftChop n p) (some p),
                     phase := fupd c.phase p (.triedLeft true) }
        | some _ => { c with phase := fupd c.phase p (.triedLeft false) }
    | .triedLeft gl =>
        match c.locks (rightChop n p) with
        | none =>
            { c with locks := fupd c.locks (rightChop n p) (some p),
                     phase := fupd c.phase p (.triedBoth gl true) }
        | some _ => { c with phase := fupd c.phase p (.triedBoth gl false) }
    | .triedBoth gl gr =>
        match gl, gr with
        | true, true =>
            { c with events := c.events ++ [.eating p (leftChop n p) (rightChop n p)],
                     phase := fupd c.phase p .eatingPh }
        | true, false =>
            { c with locks := fupd c.locks (leftChop n p) none,
                     phase := fupd c.phase p .resting }
        | false, true =>
            { c with locks := fupd c.locks (rightChop n p) none,
                     phase := fupd c.phase p .resting }
        | false, false => { c with phase := fupd c.phase p .resting }
    | .eatingPh =>
        { c with fed := fupd c.fed p (c.fed p + 1),
                 phase := fupd c.phase p .fedDone }
    | .fedDone =>
        { c with events := c.events ++ [.finishedEating p (leftChop n p) (rightChop n p)],
                 phase := fupd c.phase p .relRight }
    | .relRight =>
        { c with locks := fupd c.locks (rightChop n p) none,
                 phase := fupd c.phase p .relLeft }
    | .relLeft =>
        { c with locks := fupd c.locks (leftChop n p) none,
                 phase := fupd c.phase p .resting }
  else c

/-- Dispatch one scheduled action. -/
def stepAct (n : ℕ) (c : Config) (pa : ℕ × Act) : Config :=
  match pa.2 with
  | .think => stepThink n c pa.1
  | .go => stepGo n c pa.1

/-- The state set up by `main`: all chopsticks free, empty log, all
`times_fed` counters zero, every thread at the top of its loop. -/
def initConfig : Config :=
  { locks := fun _ => none, events := [], fed := fun _ => 0,
    phase := fun _ => .resting }

/-- Run the simulation under the interleaving, coin flips and stopping
point encoded by the script. -/
def runSim (n : ℕ) (s : List (ℕ × Act)) : Config :=
  s.foldl (stepAct n) initConfig

/-- Models `rand_sleep_duration`:
`rng.random_range(1..=max_millis)` drawn as a seed-indexed value ranging
over exactly `[1, max_millis]` whole milliseconds; `none` models the panic
of `random_range` on the empty range `1..=0`. -/
def rand_sleep_duration (maxMillis seed : ℕ) : Option ℕ :=
  if maxMillis = 0 then none else some (1 + seed % maxMillis)

/-- Observable sequential actions of one philosopher thread. -/
inductive Action where
  | tryAcquire (res : ℕ) (success : Bool)
  | appendEvent (e : Event)
  | sleepMs (d : ℕ)
  | incTimesFed (p : ℕ)
  | release (res : ℕ)
deriving DecidableEq, Repr

/-- Sequential trace of one `Philosopher::try_to_eat` call, given the two
`try_lock` outcomes `gl`, `gr` and the random seed.  Both `try_lock`s are
issued before either result is inspected; on double success the call runs
`eat` (draw the sleep, push `Eating`, sleep), increments `times_fed`,
pushes `FinishedEating` and drops the right then the left guard; on a
partial success the single held guard is dropped without any event.
`none` models the `rand_sleep_duration` panic when `maxEat = 0`. -/
def tryToEatTrace (p L R : ℕ) (gl gr : Bool) (maxEat seed : ℕ) :
    Option (List Action) :=
  match gl, gr with
  | true, true =>
      match rand_sleep_duration maxEat seed with
      | none => none
      | some d =>
          some [.tryAcquire L true, .tryAcquire R true,
                .appendEvent (.eating p L R), .sleepMs d, .incTimesFed p,
                .appendEvent (.finishedEating p L R), .release R, .release L]
  | true, false => some [.tryAcquire L true, .tryAcquire R false, .release L]
  | false, true => some [.tryAcquire L false, .tryAcquire R true, .release R]
  | false, false => some [.tryAcquire L false, .tryAcquire R false]

/-- Sequential trace of one `Philosopher::think` call: draw the sleep
duration (panicking if `maxThink = 0`), push `Thinking`, sleep. -/
def thinkTrace (p maxThink seed : ℕ) : Option (List Action) :=
  (rand_sleep_duration maxThink seed).map
    (fun d => [.appendEvent (.thinking p), .sleepMs d])

/-- Result of `now.elapsed()` at the top of a driver-loop iteration. -/
inductive ClockRes where
  | ok (elapsedMs : ℕ)
  | err
deriving DecidableEq, Repr

/-- Outcome of one driver-loop iteration head for one thread. -/
inductive IterResult where
  | stopDeadline
  | stopClockErrLogged
  | cycle (hungry : Bool)
deriving DecidableEq, Repr

/-- The head of the loop spawned per philosopher in `main`: on
`Ok(elapsed)` break when past the deadline, otherwise run one cycle
(`think`, then `try_to_eat` iff `is_hungry`); on `Err` print the error and
break at once. -/
def loopIter (timeoutMs : ℕ) (cr : ClockRes) (hungry : Bool) : IterResult :=
  match cr with
  | .ok e => if timeoutMs ≤ e then .stopDeadline else .cycle hungry
  | .err => .stopClockErrLogged

/-- Why one thread's loop ended. -/
inductive StopReason where
  | deadline
  | clockErr
deriving DecidableEq, Repr

/-- One thread's loop over a finite stream of clock readings and hunger
coins: the list of cycles it performs (each entry the cycle's hunger coin)
and how it stopped (`none` when the modelled stream ran out first). -/
def actorRun (timeoutMs : ℕ) :
    List (ClockRes × Bool) → List Bool × Option StopReason
  | [] => ([], none)
  | (cr, h) :: rest =>
      match loopIter timeoutMs cr h with
      | .stopDeadline => ([], some .deadline)
      | .stopClockErrLogged => ([], some .clockErr)
      | .cycle hungry =>
          (hungry :: (actorRun timeoutMs rest).1, (actorRun timeoutMs rest).2)

/-- All threads' loop outcomes: thread `i` consumes only its own stream. -/
def simActorsOutcomes (timeoutMs : ℕ)
    (inputs : List (List (ClockRes × Bool))) :
    List (List Bool × Option StopReason) :=
  inputs.map (actorRun timeoutMs)

/-! Basic lemmas about the helper functions. -/

theorem fupd_self {α : Type} (f : ℕ → α) (k : ℕ) (v : α) : fupd f k v k = v := by
  simp [fupd]

theorem fupd_ne {α : Type} (f : ℕ → α) (k : ℕ) (v : α) {i : ℕ} (h : i ≠ k) :
    fupd f k v i = f i := by
  simp [fupd, h]

theorem countEating_append (l : List Event) (e : Event) (p : ℕ) :
    countEating (l ++ [e]) p =
      countEating l p + (if isEatingOf p e then 1 else 0) := by
  simp [countEating, List.filter_append]
  cases h : isEatingOf p e <;> simp [h]

theorem countFinished_append (l : List Event) (e : Event) (p : ℕ) :
    countFinished (l ++ [e]) p =
      countFinished l p + (if isFinishedOf p e then 1 else 0) := by
  simp [countFinished, List.filter_append]
  cases h : isFinishedOf p e <;> simp [h]

theorem get?_append_lt (l l' : List Event) {j : ℕ} (h : j < l.length) :
    (l ++ l').get? j = l.get? j :=
  List.get?_append h

theorem openAt_append_left (l l' : List Event) {i : ℕ} (hi : i ≤ l.length)
    (q l2 r2 : ℕ) : openAt (l ++ l') i q l2 r2 ↔ openAt l i q l2 r2 := by
  constructor
  · rintro ⟨j, hj, hget, hk⟩
    exact ⟨j, hj, by rw [get?_append_lt l l' (lt_of_lt_of_le hj hi)] at hget; exact hget,
      fun k h1 h2 => by
        have := hk k h1 h2
        rwa [get?_append_lt l l' (lt_of_lt_of_le h2 hi)] at this⟩
  · rintro ⟨j, hj, hget, hk⟩
    exact ⟨j, hj, by rw [get?_append_lt l l' (lt_of_lt_of_le hj hi)]; exact hget,
      fun k h1 h2 => by
        rw [get?_append_lt l l' (lt_of_lt_of_le h2 hi)]
        exact hk k h1 h2⟩

theorem openAt_snoc (l : List Event) (e : Event) (q l2 r2 : ℕ) :
    openAt (l ++ [e]) (l.length + 1) q l2 r2 ↔
      ((openAt l l.length q l2 r2 ∧ e ≠ .finishedEating q l2 r2) ∨
        e = .eating q l2 r2) := by
  constructor
  · rintro ⟨j, hj, hget, hk⟩
    rcases Nat.lt_succ_iff_lt_or_eq.mp hj with hjl | rfl
    · left
      refine ⟨⟨j, hjl, ?_, ?_⟩, ?_⟩
      · rwa [get?_append_lt l [e] hjl] at hget
      · intro k h1 h2
        have := hk k h1 (Nat.lt_succ_of_lt h2)
        rwa [get?_append_lt l [e] h2] at this
      · intro he
        have := hk l.length hjl (Nat.lt_succ_self _)
        rw [List.get?_concat_length] at this
        exact this (by rw [he])
    · right
      rw [List.get?_concat_length] at hget
      exact Option.some_injective _ hget
  · rintro (⟨⟨j, hj, hget, hk⟩, hne⟩ | rfl)
    · refine ⟨j, Nat.lt_succ_of_lt hj, ?_, ?_⟩
      · rw [get?_append_lt l [e] hj]; exact hget
      · intro k h1 h2
        rcases Nat.lt_succ_iff_lt_or_eq.mp h2 with hkl | rfl
        · rw [get?_append_lt l [e] hkl]; exact hk k h1 hkl
        · rw [List.get?_concat_length]
          intro hc
          exact hne (Option.some_injective _ hc)
    · refine ⟨l.length, Nat.lt_succ_self _, by rw [List.get?_concat_length], ?_⟩
      intro k h1 h2
      omega

/-! The run invariant. -/

/-- Which lock indices philosopher `p` holds in a given phase (the
right-hand side of the lock-ownership characterization). -/
def lockSpec (n p : ℕ) (ph : Phase) (i : ℕ) : Prop :=
  match ph with
  | .resting => False
  | .triedLeft gl => gl = true ∧ i = leftChop n p
  | .triedBoth gl gr =>
      (gl = true ∧ i = leftChop n p) ∨ (gr = true ∧ i = rightChop n p)
  | .eatingPh => i = leftChop n p ∨ i = rightChop n p
  | .fedDone => i = leftChop n p ∨ i = rightChop n p
  | .relRight => i = leftChop n p ∨ i = rightChop n p
  | .relLeft => i = leftChop n p

/-- In phases that require both chopsticks to have been acquired, the two
chopsticks are distinct (which fails for a table of one). -/
def distinctChops (n p : ℕ) (ph : Phase) : Prop :=
  match ph with
  | .triedBoth gl gr => gl = true → gr = true → leftChop n p ≠ rightChop n p
  | .eatingPh => leftChop n p ≠ rightChop n p
  | .fedDone => leftChop n p ≠ rightChop n p
  | .relRight => leftChop n p ≠ rightChop n p
  | .relLeft => leftChop n p ≠ rightChop n p
  | _ => True

/-- Pending `Eating` appends not yet matched by a `FinishedEating` append. -/
def phi1 (ph : Phase) : ℕ :=
  match ph with
  | .eatingPh => 1
  | .fedDone => 1
  | _ => 0

/-- Pending `times_fed` increments not yet matched by a `FinishedEating`
append. -/
def phi2 (ph : Phase) : ℕ :=
  match ph with
  | .fedDone => 1
  | _ => 0

/-- Phases during which the philosopher's eating interval is open in the
log (its `Eating` event appended, its `FinishedEating` event not yet). -/
def eatingish (ph : Phase) : Bool :=
  match ph with
  | .eatingPh => true
  | .fedDone => true
  | _ => false

/-- Every event in the log names a live philosopher and its two bound
chopsticks. -/
def wfEvent (n : ℕ) : Event → Prop
  | .thinking p => p < n
  | .eating p l r => p < n ∧ l = leftChop n p ∧ r = rightChop n p
  | .finishedEating p l r => p < n ∧ l = leftChop n p ∧ r = rightChop n p

/-- The inductive invariant of the interleaved simulation. -/
structure Inv (n : ℕ) (c : Config) : Prop where
  locksSpec : ∀ p i, c.locks i = some p ↔ (p < n ∧ lockSpec n p (c.phase p) i)
  distinct : ∀ p, p < n → distinctChops n p (c.phase p)
  counts : ∀ p, countEating c.events p = countFinished c.events p + phi1 (c.phase p)
  fedCount : ∀ p, c.fed p = countFinished c.events p + phi2 (c.phase p)
  wf : ∀ e ∈ c.events, wfEvent n e
  openIffPhase : ∀ q l2 r2, openAt c.events c.events.length q l2 r2 ↔
    (q < n ∧ eatingish (c.phase q) = true ∧ l2 = leftChop n q ∧ r2 = rightChop n q)
  noOverlapHist : ∀ i p l r q l2 r2,
    c.events.get? i = some (.eating p l r) → q ≠ p →
    openAt c.events i q l2 r2 →
    l ≠ l2 ∧ l ≠ r2 ∧ r ≠ l2 ∧ r ≠ r2

theorem inv_init (n : ℕ) : Inv n initConfig := by
  refine ⟨?_, ?_, ?_, ?_, ?_, ?_, ?_⟩
  · intro p i
    simp [initConfig, lockSpec]
  · intro p _
    simp [initConfig, distinctChops]
  · intro p
    simp [initConfig, countEating, countFinished, phi1]
  · intro p
    simp [initConfig, countFinished, phi2]
  · intro e he
    simp [initConfig] at he
  · intro q l2 r2
    simp only [initConfig]
    constructor
    · rintro ⟨j, hj, _, _⟩
      simp at hj
    · rintro ⟨_, hq, _, _⟩
      simp [eatingish] at hq
  · intro i p l r q l2 r2 hget
    simp [initConfig] at hget

/-! Preservation of the invariant, step shape by step shape. -/

theorem inv_phase_change {n : ℕ} {c : Config} {p : ℕ} {ph' : Phase}
    (h : Inv n c)
    (hlock : ∀ i, lockSpec n p (c.phase p) i ↔ lockSpec n p ph' i)
    (hdist : p < n → distinctChops n p ph')
    (hphi1 : phi1 ph' = phi1 (c.phase p))
    (hphi2 : phi2 ph' = phi2 (c.phase p))
    (heat : eatingish ph' = eatingish (c.phase p)) :
    Inv n { c with phase := fupd c.phase p ph' } := by
  refine ⟨?_, ?_, ?_, ?_, h.wf, ?_, h.noOverlapHist⟩
  · intro q i
    show c.locks i = some q ↔ q < n ∧ lockSpec n q (fupd c.phase p ph' q) i
    rw [h.locksSpec q i]
    by_cases hqp : q = p
    · subst hqp
      rw [fupd_self]
      exact and_congr_right (fun _ => hlock i)
    · rw [fupd_ne _ _ _ hqp]
  · intro q hq
    show distinctChops n q (fupd c.phase p ph' q)
    by_cases hqp : q = p
    · subst hqp; rw [fupd_self]; exact hdist hq
    · rw [fupd_ne _ _ _ hqp]; exact h.distinct q hq
  · intro q
    show countEating c.events q = countFinished c.events q + phi1 (fupd c.phase p ph' q)
    by_cases hqp : q = p
    · subst hqp; rw [fupd_self, hphi1]; exact h.counts q
    · rw [fupd_ne _ _ _ hqp]; exact h.counts q
  · intro q
    show c.fed q = countFinished c.events q + phi2 (fupd c.phase p ph' q)
    by_cases hqp : q = p
    · subst hqp; rw [fupd_self, hphi2]; exact h.fedCount q
    · rw [fupd_ne _ _ _ hqp]; exact h.fedCount q
  · intro q l2 r2
    show openAt c.events c.events.length q l2 r2 ↔
      q < n ∧ eatingish (fupd c.phase p ph' q) = true ∧
        l2 = leftChop n q ∧ r2 = rightChop n q
    rw [h.openIffPhase q l2 r2]
    by_cases hqp : q = p
    · subst hqp; rw [fupd_self, heat]
    · rw [fupd_ne _ _ _ hqp]

theorem inv_acquire {n : ℕ} {c : Config} {p j : ℕ} {ph' : Phase}
    (hp : p < n) (h : Inv n c) (hj : c.locks j = none)
    (hlock : ∀ i, lockSpec n p ph' i ↔ (lockSpec n p (c.phase p) i ∨ i = j))
    (hdist : distinctChops n p ph')
    (hphi1 : phi1 ph' = phi1 (c.phase p))
    (hphi2 : phi2 ph' = phi2 (c.phase p))
    (heat : eatingish ph' = eatingish (c.phase p)) :
    Inv n { c with locks := fupd c.locks j (some p),
                   phase := fupd c.phase p ph' } := by
  refine ⟨?_, ?_, ?_, ?_, h.wf, ?_, h.noOverlapHist⟩
  · intro q i
    show fupd c.locks j (some p) i = some q ↔
      q < n ∧ lockSpec n q (fupd c.phase p ph' q) i
    by_cases hij : i = j
    · subst hij
      rw [fupd_self]
      constructor
      · intro hq
        have hqp : q = p := (Option.some_injective _ hq).symm
        subst hqp
        rw [fupd_self]
        exact ⟨hp, (hlock i).mpr (Or.inr rfl)⟩
      · rintro ⟨hqn, hspec⟩
        by_cases hqp : q = p
        · subst hqp; rfl
        · rw [fupd_ne _ _ _ hqp] at hspec
          have := (h.locksSpec q i).mpr ⟨hqn, hspec⟩
          rw [hj] at this
          exact absurd this (by simp)
    · rw [fupd_ne _ _ _ hij, h.locksSpec q i]
      by_cases hqp : q = p
      · subst hqp
        rw [fupd_self]
        refine and_congr_right (fun _ => ?_)
        rw [hlock i]
        simp [hij]
      · rw [fupd_ne _ _ _ hqp]
  · intro q hq
    show distinctChops n q (fupd c.phase p ph' q)
    by_cases hqp : q = p
    · subst hqp; rw [fupd_self]; exact hdist
    · rw [fupd_ne _ _ _ hqp]; exact h.distinct q hq
  · intro q
    show countEating c.events q = countFinished c.events q + phi1 (fupd c.phase p ph' q)
    by_cases hqp : q = p
    · subst hqp; rw [fupd_self, hphi1]; exact h.counts q
    · rw [fupd_ne _ _ _ hqp]; exact h.counts q
  · intro q
    show c.fed q = countFinished c.events q + phi2 (fupd c.phase p ph' q)
    by_cases hqp : q = p
    · subst hqp; rw [fupd_self, hphi2]; exact h.fedCount q
    · rw [fupd_ne _ _ _ hqp]; exact h.fedCount q
  · intro q l2 r2
    show openAt c.events c.events.length q l2 r2 ↔
      q < n ∧ eatingish (fupd c.phase p ph' q) = true ∧
        l2 = leftChop n q ∧ r2 = rightChop n q
    rw [h.openIffPhase q l2 r2]
    by_cases hqp : q = p
    · subst hqp; rw [fupd_self, heat]
    · rw [fupd_ne _ _ _ hqp]

theorem inv_release {n : ℕ} {c : Config} {p j : ℕ} {ph' : Phase}
    (hp : p < n) (h : Inv n c)
    (hj : lockSpec n p (c.phase p) j)
    (hlock : ∀ i, lockSpec n p ph' i ↔ (lockSpec n p (c.phase p) i ∧ i ≠ j))
    (hdist : distinctChops n p ph')
    (hphi1 : phi1 ph' = phi1 (c.phase p))
    (hphi2 : phi2 ph' = phi2 (c.phase p))
    (heat : eatingish ph' = eatingish (c.phase p)) :
    Inv n { c with locks := fupd c.locks j none,
                   phase := fupd c.phase p ph' } := by
  have hjp : c.locks j = some p := (h.locksSpec p j).mpr ⟨hp, hj⟩
  refine ⟨?_, ?_, ?_, ?_, h.wf, ?_, h.noOverlapHist⟩
  · intro q i
    show fupd c.locks j none i = some q ↔
      q < n ∧ lockSpec n q (fupd c.phase p ph' q) i
    by_cases hij : i = j
    · subst hij
      rw [fupd_self]
      constructor
      · intro hq; exact absurd hq (by simp)
      · rintro ⟨hqn, hspec⟩
        by_cases hqp : q = p
        · subst hqp
          rw [fupd_self, hlock i] at hspec
          exact absurd rfl hspec.2
        · rw [fupd_ne _ _ _ hqp] at hspec
          have := (h.locksSpec q i).mpr ⟨hqn, hspec⟩
          rw [hjp] at this
          exact absurd (Option.some_injective _ this).symm hqp
    · rw [fupd_ne _ _ _ hij, h.locksSpec q i]
      by_cases hqp : q = p
      · subst hqp
        rw [fupd_self]
        refine and_congr_right (fun _ => ?_)
        rw [hlock i]
        simp [hij]
      · rw [fupd_ne _ _ _ hqp]
  · intro q hq
    show distinctChops n q (fupd c.phase p ph' q)
    by_cases hqp : q = p
    · subst hqp; rw [fupd_self]; exact hdist
    · rw [fupd_ne _ _ _ hqp]; exact h.distinct q hq
  · intro q
    show countEating c.events q = countFinished c.events q + phi1 (fupd c.phase p ph' q)
    by_cases hqp : q = p
    · subst hqp; rw [fupd_self, hphi1]; exact h.counts q
    · rw [fupd_ne _ _ _ hqp]; exact h.counts q
  · intro q
    show c.fed q = countFinished c.events q + phi2 (fupd c.phase p ph' q)
    by_cases hqp : q = p
    · subst hqp; rw [fupd_self, hphi2]; exact h.fedCount q
    · rw [fupd_ne _ _ _ hqp]; exact h.fedCount q
  · intro q l2 r2
    show openAt c.events c.events.length q l2 r2 ↔
      q < n ∧ eatingish (fupd c.phase p ph' q) = true ∧
        l2 = leftChop n q ∧ r2 = rightChop n q
    rw [h.openIffPhase q l2 r2]
    by_cases hqp : q = p
    · subst hqp; rw [fupd_self, heat]
    · rw [fupd_ne _ _ _ hqp]

theorem noOverlapHist_snoc {n : ℕ} {c : Config} (h : Inv n c) (e : Event)
    (he : ∀ p l r, e ≠ .eating p l r) :
    ∀ i p l r q l2 r2,
      (c.events ++ [e]).get? i = some (.eating p l r) → q ≠ p →
      openAt (c.events ++ [e]) i q l2 r2 →
      l ≠ l2 ∧ l ≠ r2 ∧ r ≠ l2 ∧ r ≠ r2 := by
  intro i p l r q l2 r2 hget hqp hopen
  have hi : i < (c.events ++ [e]).length := by
    by_contra hge
    rw [List.get?_eq_none.mpr (le_of_not_lt hge)] at hget
    exact Option.noConfusion hget
  rw [List.length_append, List.length_singleton] at hi
  rcases Nat.lt_succ_iff_lt_or_eq.mp hi with hil | rfl
  · rw [get?_append_lt _ _ hil] at hget
    rw [openAt_append_left _ _ (le_of_lt hil)] at hopen
    exact h.noOverlapHist i p l r q l2 r2 hget hqp hopen
  · rw [List.get?_concat_length] at hget
    exact absurd (Option.some_injective _ hget) (he p l r)

theorem inv_stepThink (n : ℕ) (c : Config) (p : ℕ) (h : Inv n c) :
    Inv n (stepThink n c p) := by
  unfold stepThink
  split
  case isFalse => exact h
  case isTrue hc =>
    obtain ⟨hp, _⟩ := hc
    refine ⟨h.locksSpec, h.distinct, ?_, ?_, ?_, ?_, ?_⟩
    · intro q
      show countEating (c.events ++ [.thinking p]) q =
        countFinished (c.events ++ [.thinking p]) q + phi1 (c.phase q)
      rw [countEating_append, countFinished_append]
      have h1 : isEatingOf q (Event.thinking p) = false := rfl
      have h2 : isFinishedOf q (Event.thinking p) = false := rfl
      rw [h1, h2]
      simpa using h.counts q
    · intro q
      show c.fed q = countFinished (c.events ++ [.thinking p]) q + phi2 (c.phase q)
      rw [countFinished_append]
      have h2 : isFinishedOf q (Event.thinking p) = false := rfl
      rw [h2]
      simpa using h.fedCount q
    · intro e he
      rcases List.mem_append.mp he with h1 | h2
      · exact h.wf e h1
      · rw [List.mem_singleton.mp h2]
        exact hp
    · intro q l2 r2
      show openAt (c.events ++ [Event.thinking p]) (c.events ++ [Event.thinking p]).length q l2 r2 ↔
        q < n ∧ eatingish (c.phase q) = true ∧
          l2 = leftChop n q ∧ r2 = rightChop n q
      rw [List.length_append, List.length_singleton, openAt_snoc]
      constructor
      · rintro (⟨ho, _⟩ | hee)
        · exact (h.openIffPhase q l2 r2).mp ho
        · exact absurd hee (by simp)
      · intro hr
        exact Or.inl ⟨(h.openIffPhase q l2 r2).mpr hr, by simp⟩
    · exact noOverlapHist_snoc h _ (by intro p' l' r'; simp)

theorem lockSpec_of_eatingish {n q : ℕ} {ph : Phase} (h : eatingish ph = true) :
    lockSpec n q ph (leftChop n q) ∧ lockSpec n q ph (rightChop n q) := by
  cases ph with
  | eatingPh => exact ⟨Or.inl rfl, Or.inr rfl⟩
  | fedDone => exact ⟨Or.inl rfl, Or.inr rfl⟩
  | resting => simp [eatingish] at h
  | triedLeft gl => simp [eatingish] at h
  | triedBoth gl gr => simp [eatingish] at h
  | relRight => simp [eatingish] at h
  | relLeft => simp [eatingish] at h

theorem inv_stepGo (n : ℕ) (c : Config) (p : ℕ) (h : Inv n c) :
    Inv n (stepGo n c p) := by
  by_cases hp : p < n
  case neg => unfold stepGo; rw [if_neg hp]; exact h
  unfold stepGo
  rw [if_pos hp]
  cases hph : c.phase p with
  | resting =>
      cases hl : c.locks (leftChop n p) with
      | none =>
          apply inv_acquire hp h hl
          · intro i; rw [hph]; simp [lockSpec]
          · trivial
          · rw [hph]; rfl
          · rw [hph]; rfl
          · rw [hph]; rfl
      | some w =>
          apply inv_phase_change h
          · intro i; rw [hph]; simp [lockSpec]
          · intro _; trivial
          · rw [hph]; rfl
          · rw [hph]; rfl
          · rw [hph]; rfl
  | triedLeft gl =>
      cases hl : c.locks (rightChop n p) with
      | none =>
          apply inv_acquire hp h hl
          · intro i; rw [hph]; simp [lockSpec]
          · intro hgl _ hLR
            have hpl : c.locks (leftChop n p) = some p :=
              (h.locksSpec p (leftChop n p)).mpr ⟨hp, by rw [hph]; exact ⟨hgl, rfl⟩⟩
            rw [hLR, hl] at hpl
            exact Option.noConfusion hpl
          · rw [hph]; rfl
          · rw [hph]; rfl
          · rw [hph]; rfl
      | some w =>
          apply inv_phase_change h
          · intro i; rw [hph]; simp [lockSpec]
          · intro _ hgl hgr
            exact absurd hgr (by simp)
          · rw [hph]; rfl
          · rw [hph]; rfl
          · rw [hph]; rfl
  | triedBoth gl gr =>
      cases gl <;> cases gr
      · -- neither guard obtained
        apply inv_phase_change h
        · intro i; rw [hph]; simp [lockSpec]
        · intro _; trivial
        · rw [hph]; rfl
        · rw [hph]; rfl
        · rw [hph]; rfl
      · -- only the right guard: it is dropped with the discarded result
        apply inv_release hp h
          (show lockSpec n p (c.phase p) (rightChop n p) by
            rw [hph]; exact Or.inr ⟨rfl, rfl⟩)
        · intro i; rw [hph]; simp [lockSpec]
        · trivial
        · rw [hph]; rfl
        · rw [hph]; rfl
        · rw [hph]; rfl
      · -- only the left guard: dropped at the end of the outer if-let
        apply inv_release hp h
          (show lockSpec n p (c.phase p) (leftChop n p) by
            rw [hph]; exact Or.inl ⟨rfl, rfl⟩)
        · intro i; rw [hph]; simp [lockSpec]
        · trivial
        · rw [hph]; rfl
        · rw [hph]; rfl
        · rw [hph]; rfl
      · -- both guards held: push the Eating event
        have hdtt := h.distinct p hp
        rw [hph] at hdtt
        have hLR : leftChop n p ≠ rightChop n p := hdtt rfl rfl
        have hpl : c.locks (leftChop n p) = some p :=
          (h.locksSpec p (leftChop n p)).mpr ⟨hp, by rw [hph]; exact Or.inl ⟨rfl, rfl⟩⟩
        have hpr : c.locks (rightChop n p) = some p :=
          (h.locksSpec p (rightChop n p)).mpr ⟨hp, by rw [hph]; exact Or.inr ⟨rfl, rfl⟩⟩
        refine ⟨?_, ?_, ?_, ?_, ?_, ?_, ?_⟩
        · intro q i
          show c.locks i = some q ↔ q < n ∧ lockSpec n q (fupd c.phase p .eatingPh q) i
          rw [h.locksSpec q i]
          by_cases hqp : q = p
          · subst hqp
            rw [fupd_self, hph]
            refine and_congr_right (fun _ => ?_)
            simp [lockSpec]
          · rw [fupd_ne _ _ _ hqp]
        · intro q hq
          show distinctChops n q (fupd c.phase p .eatingPh q)
          by_cases hqp : q = p
          · subst hqp; rw [fupd_self]; exact hLR
          · rw [fupd_ne _ _ _ hqp]; exact h.distinct q hq
        · intro q
          show countEating (c.events ++ [Event.eating p (leftChop n p) (rightChop n p)]) q =
            countFinished (c.events ++ [Event.eating p (leftChop n p) (rightChop n p)]) q +
              phi1 (fupd c.phase p .eatingPh q)
          rw [countEating_append, countFinished_append]
          have h2 : isFinishedOf q (Event.eating p (leftChop n p) (rightChop n p)) = false := rfl
          rw [h2]
          by_cases hqp : q = p
          · subst hqp
            have h1 : isEatingOf q (Event.eating q (leftChop n q) (rightChop n q)) = true := by
              simp [isEatingOf]
            rw [h1, fupd_self]
            have hcounts := h.counts q
            rw [hph] at hcounts
            simp [phi1] at hcounts ⊢
            omega
          · have h1 : isEatingOf q (Event.eating p (leftChop n p) (rightChop n p)) = false := by
              simp [isEatingOf]
              exact fun hh => hqp hh.symm
            rw [h1, fupd_ne _ _ _ hqp]
            simpa using h.counts q
        · intro q
          show c.fed q =
            countFinished (c.events ++ [Event.eating p (leftChop n p) (rightChop n p)]) q +
              phi2 (fupd c.phase p .eatingPh q)
          rw [countFinished_append]
          have h2 : isFinishedOf q (Event.eating p (leftChop n p) (rightChop n p)) = false := rfl
          rw [h2]
          by_cases hqp : q = p
          · subst hqp
            rw [fupd_self]
            have hfed := h.fedCount q
            rw [hph] at hfed
            simpa [phi2] using hfed
          · rw [fupd_ne _ _ _ hqp]
            simpa using h.fedCount q
        · intro e he
          rcases List.mem_append.mp he with h1 | h2
          · exact h.wf e h1
          · rw [List.mem_singleton.mp h2]
            exact ⟨hp, rfl, rfl⟩
        · intro q l2 r2
          show openAt (c.events ++ [Event.eating p (leftChop n p) (rightChop n p)])
            (c.events ++ [Event.eating p (leftChop n p) (rightChop n p)]).length q l2 r2 ↔
            q < n ∧ eatingish (fupd c.phase p .eatingPh q) = true ∧
              l2 = leftChop n q ∧ r2 = rightChop n q
          rw [List.length_append, List.length_singleton, openAt_snoc]
          by_cases hqp : q = p
          · subst hqp
            rw [fupd_self]
            constructor
            · rintro (⟨ho, _⟩ | hee)
              · have hold := (h.openIffPhase q l2 r2).mp ho
                rw [hph] at hold
                exact absurd hold.2.1 (by simp [eatingish])
              · injection hee with _ hl2 hr2
                exact ⟨hp, rfl, hl2.symm, hr2.symm⟩
            · rintro ⟨_, _, hl2, hr2⟩
              right
              rw [hl2, hr2]
          · rw [fupd_ne _ _ _ hqp]
            constructor
            · rintro (⟨ho, _⟩ | hee)
              · exact (h.openIffPhase q l2 r2).mp ho
              · injection hee with hpq _ _
                exact absurd hpq.symm hqp
            · intro hr
              exact Or.inl ⟨(h.openIffPhase q l2 r2).mpr hr, by simp⟩
        · intro i p' l' r' q l2 r2 hget hqp hopen
          have hi : i < (c.events ++ [Event.eating p (leftChop n p) (rightChop n p)]).length := by
            by_contra hge
            rw [List.get?_eq_none.mpr (le_of_not_lt hge)] at hget
            exact Option.noConfusion hget
          rw [List.length_append, List.length_singleton] at hi
          rcases Nat.lt_succ_iff_lt_or_eq.mp hi with hil | rfl
          · rw [get?_append_lt _ _ hil] at hget
            rw [openAt_append_left _ _ (le_of_lt hil)] at hopen
            exact h.noOverlapHist i p' l' r' q l2 r2 hget hqp hopen
          · rw [List.get?_concat_length] at hget
            have hee := Option.some_injective _ hget
            injection hee with hp1 hp2 hp3
            rw [openAt_append_left _ _ (le_refl _)] at hopen
            obtain ⟨hqn, hqeat, hql2, hqr2⟩ := (h.openIffPhase q l2 r2).mp hopen
            have hql : c.locks (leftChop n q) = some q :=
              (h.locksSpec q _).mpr ⟨hqn, (lockSpec_of_eatingish hqeat).1⟩
            have hqr : c.locks (rightChop n q) = some q :=
              (h.locksSpec q _).mpr ⟨hqn, (lockSpec_of_eatingish hqeat).2⟩
            have hqp2 : q ≠ p := fun hh => hqp (hh.trans hp1)
            rw [← hp2, ← hp3, hql2, hqr2]
            clear hqp
            rename' hqp2 => hqp
            refine ⟨?_, ?_, ?_, ?_⟩ <;> intro heq
            · rw [heq, hql] at hpl
              exact hqp (Option.some_injective _ hpl)
            · rw [heq, hqr] at hpl
              exact hqp (Option.some_injective _ hpl)
            · rw [heq, hql] at hpr
              exact hqp (Option.some_injective _ hpr)
            · rw [heq, hqr] at hpr
              exact hqp (Option.some_injective _ hpr)
  | eatingPh =>
      refine ⟨?_, ?_, ?_, ?_, h.wf, ?_, h.noOverlapHist⟩
      · intro q i
        show c.locks i = some q ↔ q < n ∧ lockSpec n q (fupd c.phase p .fedDone q) i
        rw [h.locksSpec q i]
        by_cases hqp : q = p
        · subst hqp
          rw [fupd_self, hph]
          exact Iff.rfl
        · rw [fupd_ne _ _ _ hqp]
      · intro q hq
        show distinctChops n q (fupd c.phase p .fedDone q)
        by_cases hqp : q = p
        · subst hqp; rw [fupd_self]
          have := h.distinct q hq
          rw [hph] at this
          exact this
        · rw [fupd_ne _ _ _ hqp]; exact h.distinct q hq
      · intro q
        show countEating c.events q = countFinished c.events q + phi1 (fupd c.phase p .fedDone q)
        by_cases hqp : q = p
        · subst hqp; rw [fupd_self]
          have := h.counts q
          rw [hph] at this
          exact this
        · rw [fupd_ne _ _ _ hqp]; exact h.counts q
      · intro q
        show fupd c.fed p (c.fed p + 1) q =
          countFinished c.events q + phi2 (fupd c.phase p .fedDone q)
        by_cases hqp : q = p
        · subst hqp
          rw [fupd_self, fupd_self]
          have := h.fedCount q
          rw [hph] at this
          rw [this]
          simp [phi2]
        · rw [fupd_ne _ _ _ hqp, fupd_ne _ _ _ hqp]; exact h.fedCount q
      · intro q l2 r2
        show openAt c.events c.events.length q l2 r2 ↔
          q < n ∧ eatingish (fupd c.phase p .fedDone q) = true ∧
            l2 = leftChop n q ∧ r2 = rightChop n q
        rw [h.openIffPhase q l2 r2]
        by_cases hqp : q = p
        · subst hqp; rw [fupd_self, hph]
          exact Iff.rfl
        · rw [fupd_ne _ _ _ hqp]
  | fedDone =>
      have hd := h.distinct p hp
      rw [hph] at hd
      refine ⟨?_, ?_, ?_, ?_, ?_, ?_, ?_⟩
      · intro q i
        show c.locks i = some q ↔ q < n ∧ lockSpec n q (fupd c.phase p .relRight q) i
        rw [h.locksSpec q i]
        by_cases hqp : q = p
        · subst hqp
          rw [fupd_self, hph]
          exact Iff.rfl
        · rw [fupd_ne _ _ _ hqp]
      · intro q hq
        show distinctChops n q (fupd c.phase p .relRight q)
        by_cases hqp : q = p
        · subst hqp; rw [fupd_self]; exact hd
        · rw [fupd_ne _ _ _ hqp]; exact h.distinct q hq
      · intro q
        show countEating (c.events ++ [Event.finishedEating p (leftChop n p) (rightChop n p)]) q =
          countFinished (c.events ++ [Event.finishedEating p (leftChop n p) (rightChop n p)]) q +
            phi1 (fupd c.phase p .relRight q)
        rw [countEating_append, countFinished_append]
        have h1 : isEatingOf q (Event.finishedEating p (leftChop n p) (rightChop n p)) = false := rfl
        rw [h1]
        by_cases hqp : q = p
        · subst hqp
          have h2 : isFinishedOf q (Event.finishedEating q (leftChop n q) (rightChop n q)) = true := by
            simp [isFinishedOf]
          rw [h2, fupd_self]
          have hcounts := h.counts q
          rw [hph] at hcounts
          simp [phi1] at hcounts ⊢
          omega
        · have h2 : isFinishedOf q (Event.finishedEating p (leftChop n p) (rightChop n p)) = false := by
            simp [isFinishedOf]
            exact fun hh => hqp hh.symm
          rw [h2, fupd_ne _ _ _ hqp]
          simpa using h.counts q
      · intro q
        show c.fed q =
          countFinished (c.events ++ [Event.finishedEating p (leftChop n p) (rightChop n p)]) q +
            phi2 (fupd c.phase p .relRight q)
        rw [countFinished_append]
        by_cases hqp : q = p
        · subst hqp
          have h2 : isFinishedOf q (Event.finishedEating q (leftChop n q) (rightChop n q)) = true := by
            simp [isFinishedOf]
          rw [h2, fupd_self]
          have hfed := h.fedCount q
          rw [hph] at hfed
          simp [phi2] at hfed ⊢
          omega
        · have h2 : isFinishedOf q (Event.finishedEating p (leftChop n p) (rightChop n p)) = false := by
            simp [isFinishedOf]
            exact fun hh => hqp hh.symm
          rw [h2, fupd_ne _ _ _ hqp]
          simpa using h.fedCount q
      · intro e he
        rcases List.mem_append.mp he with h1 | h2
        · exact h.wf e h1
        · rw [List.mem_singleton.mp h2]
          exact ⟨hp, rfl, rfl⟩
      · intro q l2 r2
        show openAt (c.events ++ [Event.finishedEating p (leftChop n p) (rightChop n p)])
          (c.events ++ [Event.finishedEating p (leftChop n p) (rightChop n p)]).length q l2 r2 ↔
          q < n ∧ eatingish (fupd c.phase p .relRight q) = true ∧
            l2 = leftChop n q ∧ r2 = rightChop n q
        rw [List.length_append, List.length_singleton, openAt_snoc]
        by_cases hqp : q = p
        · subst hqp
          rw [fupd_self]
          constructor
          · rintro (⟨ho, hne⟩ | hee)
            · obtain ⟨_, _, hl2, hr2⟩ := (h.openIffPhase q l2 r2).mp ho
              exact absurd (by rw [hl2, hr2] : Event.finishedEating q (leftChop n q) (rightChop n q) = Event.finishedEating q l2 r2) hne
            · exact Event.noConfusion hee
          · rintro ⟨_, heat, _, _⟩
            exact absurd heat (by simp [eatingish])
        · rw [fupd_ne _ _ _ hqp]
          constructor
          · rintro (⟨ho, _⟩ | hee)
            · exact (h.openIffPhase q l2 r2).mp ho
            · exact Event.noConfusion hee
          · intro hr
            refine Or.inl ⟨(h.openIffPhase q l2 r2).mpr hr, ?_⟩
            intro hc
            injection hc with hpq _ _
            exact hqp hpq.symm
      · exact noOverlapHist_snoc h _ (by intro p' l' r'; simp)
  | relRight =>
      have hd := h.distinct p hp
      rw [hph] at hd
      apply inv_release hp h
        (show lockSpec n p (c.phase p) (rightChop n p) by rw [hph]; exact Or.inr rfl)
      · intro i
        rw [hph]
        constructor
        · intro hiL
          exact ⟨Or.inl hiL, by rw [hiL]; exact hd⟩
        · rintro ⟨hiLR, hne⟩
          rcases hiLR with hiL | hiR
          · exact hiL
          · exact absurd hiR hne
      · exact hd
      · rw [hph]; rfl
      · rw [hph]; rfl
      · rw [hph]; rfl
  | relLeft =>
      apply inv_release hp h
        (show lockSpec n p (c.phase p) (leftChop n p) by rw [hph]; rfl)
      · intro i; rw [hph]; simp [lockSpec]
      · trivial
      · rw [hph]; rfl
      · rw [hph]; rfl
      · rw [hph]; rfl

theorem inv_stepAct (n : ℕ) (c : Config) (pa : ℕ × Act) (h : Inv n c) :
    Inv n (stepAct n c pa) := by
  rcases pa with ⟨p, a⟩
  cases a
  · exact inv_stepThink n c p h
  · exact inv_stepGo n c p h

theorem inv_foldl (n : ℕ) : ∀ (s : List (ℕ × Act)) (c : Config), Inv n c →
    Inv n (s.foldl (stepAct n) c)
  | [], _, h => h
  | pa :: s, c, h => inv_foldl n s _ (inv_stepAct n c pa h)

theorem inv_runSim (n : ℕ) (s : List (ℕ × Act)) : Inv n (runSim n s) :=
  inv_foldl n s initConfig (inv_init n)

/-! Analyzer feed counts and the degenerate one-seat table. -/

theorem countFinished_cons (e : Event) (l : List Event) (p : ℕ) :
    countFinished (e :: l) p =
      (if isFinishedOf p e then 1 else 0) + countFinished l p := by
  simp only [countFinished, List.filter]
  cases hf : isFinishedOf p e <;> simp [hf] <;> omega

theorem analyzeFrom_timesFed (l : List Event) : ∀ (j : ℕ) (s : AnalyzerState) (i : ℕ),
    (analyzeFrom j s l).timesFed i = s.timesFed i + countFinished l i := by
  induction l with
  | nil =>
      intro j s i
      simp [analyzeFrom, countFinished]
  | cons e es ih =>
      intro j s i
      show (analyzeFrom (j + 1) (analyzeStep s j e) es).timesFed i = _
      rw [ih, countFinished_cons]
      cases e with
      | thinking v =>
          show s.timesFed i + countFinished es i = s.timesFed i + ((if false then 1 else 0) + countFinished es i)
          simp
      | eating v el er =>
          show s.timesFed i + countFinished es i = s.timesFed i + ((if false then 1 else 0) + countFinished es i)
          simp
      | finishedEating v el er =>
          show (if i = v then s.timesFed i + 1 else s.timesFed i) + countFinished es i =
            s.timesFed i + ((if (v == i) then 1 else 0) + countFinished es i)
          by_cases hiv : i = v
          · subst hiv
            simp
            omega
          · rw [if_neg hiv, if_neg (by simpa using fun hh => hiv hh.symm)]
            omega

theorem analyze_timesFed (events : List Event) (i : ℕ) :
    (analyze events).timesFed i = countFinished events i := by
  unfold analyze
  rw [analyzeFrom_timesFed]
  simp [initAnalyzer]

theorem runSim_append (n : ℕ) (s : List (ℕ × Act)) (pa : ℕ × Act) :
    runSim n (s ++ [pa]) = stepAct n (runSim n s) pa := by
  unfold runSim
  rw [List.foldl_append]
  rfl

theorem no_eating_n1 (s : List (ℕ × Act)) :
    ((runSim 1 s).events.filter isEatingEv) = [] := by
  induction s using List.reverseRecOn with
  | nil => rfl
  | append_singleton s pa ih =>
      have hInv := inv_runSim 1 s
      rw [runSim_append]
      rcases pa with ⟨p, a⟩
      cases a
      · show ((stepThink 1 (runSim 1 s) p).events.filter isEatingEv) = []
        unfold stepThink
        by_cases hc : p < 1 ∧ (runSim 1 s).phase p = Phase.resting
        · rw [if_pos hc]
          show ((runSim 1 s).events ++ [Event.thinking p]).filter isEatingEv = []
          rw [List.filter_append, ih]
          rfl
        · rw [if_neg hc]
          exact ih
      · show ((stepGo 1 (runSim 1 s) p).events.filter isEatingEv) = []
        unfold stepGo
        by_cases hp : p < 1
        · rw [if_pos hp]
          have hp0 : p = 0 := by omega
          cases hph : (runSim 1 s).phase p with
          | resting =>
              cases hl : (runSim 1 s).locks (leftChop 1 p) <;> exact ih
          | triedLeft gl =>
              cases hl : (runSim 1 s).locks (rightChop 1 p) <;> exact ih
          | triedBoth gl gr =>
              cases gl <;> cases gr
              · exact ih
              · exact ih
              · exact ih
              · have hdis := hInv.distinct p hp
                rw [hph] at hdis
                have hLR := hdis rfl rfl
                subst hp0
                exact absurd (by decide) hLR
          | eatingPh => exact ih
          | fedDone =>
              show ((runSim 1 s).events ++
                [Event.finishedEating p (leftChop 1 p) (rightChop 1 p)]).filter isEatingEv = []
              rw [List.filter_append, ih]
              rfl
          | relRight => exact ih
          | relLeft => exact ih
        · rw [if_neg hp]
          exact ih

/-- Events appended by an action trace. -/
def actionEvent : Action → Option Event
  | .appendEvent e => some e
  | _ => none

/-- Recognizes `times_fed` increment actions. -/
def isIncAct : Action → Bool
  | .incTimesFed _ => true
  | _ => false

/-! Concrete schedules used to instantiate the claims. -/

/-- On a table of four: philosopher 0 eats (chopsticks 3 and 0), then
philosopher 2 eats concurrently (chopsticks 1 and 2). -/
def c1Script : List (ℕ × Act) :=
  [(0, Act.go), (0, Act.go), (0, Act.go), (2, Act.go), (2, Act.go), (2, Act.go)]

/-- The injected-fault log of Scenario C. -/
def scenarioLog : List Event :=
  [Event.eating 0 4 0, Event.eating 1 0 1,
   Event.finishedEating 0 4 0, Event.finishedEating 1 0 1]

/-- On a table of two: philosopher 0 runs one complete successful
`try_to_eat` call (seven atomic steps). -/
def c3Script : List (ℕ × Act) :=
  [(0, Act.go), (0, Act.go), (0, Act.go), (0, Act.go), (0, Act.go),
   (0, Act.go), (0, Act.go)]

/-- The successful-call action trace with both chopsticks 1 and 0 and a
one-millisecond sleep. -/
def c3Trace : List Action :=
  [Action.tryAcquire 1 true, Action.tryAcquire 0 true,
   Action.appendEvent (Event.eating 0 1 0), Action.sleepMs 1,
   Action.incTimesFed 0, Action.appendEvent (Event.finishedEating 0 1 0),
   Action.release 0, Action.release 1]

/-- On a table of three: philosopher 0 takes both its chopsticks, then
philosopher 1 fails on its left (chopstick 0, held by 0). -/
def c5PreScript : List (ℕ × Act) := [(0, Act.go), (0, Act.go), (1, Act.go)]

/-- `c5PreScript` continued: philosopher 1 then still try-locks its right
(chopstick 1) and acquires it. -/
def c5Script : List (ℕ × Act) :=
  [(0, Act.go), (0, Act.go), (1, Act.go), (1, Act.go)]

/-- Per-actor input streams (clock readings and hunger coins) for two
threads. -/
def c9Ins : List (List (ClockRes × Bool)) :=
  [[(ClockRes.ok 0, true)], [(ClockRes.ok 0, false)]]

/-! The claims. -/

/-- C1: in every run of the simulation, mutual exclusion holds on the log:
whenever an `Eating(p, l, r)` event sits at log position `i`, no other
philosopher `q` has an eating interval (opened by its own `Eating` and not
yet closed by the matching `FinishedEating`) open at `i` whose resource
pair shares `l` or `r`. -/
theorem C1_mutual_exclusion (n : ℕ) (s : List (ℕ × Act)) (i p l r q l2 r2 : ℕ)
    (hget : (runSim n s).events.get? i = some (Event.eating p l r))
    (hqp : q ≠ p) (hopen : openAt (runSim n s).events i q l2 r2) :
    l ≠ l2 ∧ l ≠ r2 ∧ r ≠ l2 ∧ r ≠ r2 :=
  (inv_runSim n s).noOverlapHist i p l r q l2 r2 hget hqp hopen

/-- Witness for C1 on a table of four: philosopher 2's `Eating` at log
position 1 overlaps philosopher 0's open interval on chopsticks 3 and 0,
and indeed the two resource pairs are disjoint. -/
theorem C1_mutual_exclusion_witness :
    (1 : ℕ) ≠ 3 ∧ (1 : ℕ) ≠ 0 ∧ (2 : ℕ) ≠ 3 ∧ (2 : ℕ) ≠ 0 :=
  C1_mutual_exclusion 4 c1Script 1 2 1 2 0 3 0 (by decide) (by decide)
    ⟨0, by decide, by decide,
      fun k h1 h2 => absurd (lt_of_lt_of_le h2 h1) (lt_irrefl k)⟩

/-- C2: the analyzer is the single in-order pass `analyzeStep`: on
`Eating(p, l, r)` it records a discrepancy `(logIndex, p, q)` for every
already-active tuple whose resource pair overlaps and then inserts the
tuple, and on `FinishedEating` it removes the tuple; on the Scenario C log
it reports exactly the discrepancy `(1, 1, 0)` (log index 1, violating
philosopher 1, conflicting philosopher 0) and ends with an empty active
set. -/
theorem C2_analyzer_scenario :
    (∀ (st : AnalyzerState) (i v l r : ℕ),
        (analyzeStep st i (Event.eating v l r)).discrepancies =
          st.discrepancies ++
            (st.currentlyEating.filter (fun t => overlapB l r t.2.1 t.2.2)).map
              (fun t => (i, v, t.1)) ∧
        (analyzeStep st i (Event.eating v l r)).currentlyEating =
          insertNew (v, l, r) st.currentlyEating) ∧
    (∀ (st : AnalyzerState) (i v l r : ℕ),
        (analyzeStep st i (Event.finishedEating v l r)).currentlyEating =
          st.currentlyEating.erase (v, l, r)) ∧
    (analyze scenarioLog).discrepancies = [(1, 1, 0)] ∧
    (analyze scenarioLog).currentlyEating = [] := by
  refine ⟨fun st i v l r => ⟨rfl, rfl⟩, fun st i v l r => rfl, ?_, ?_⟩ <;> decide

/-- C4: every `Eating` event of every run names a live philosopher `p` and
carries exactly the chopsticks the driver bound: left `(n - 1 + p) % n`
(equal to the spec's `(p - 1 + n) mod n` computed in `ℤ`) and right `p`. -/
theorem C4_ring_mapping (n : ℕ) (s : List (ℕ × Act)) (p l r : ℕ)
    (hmem : Event.eating p l r ∈ (runSim n s).events) :
    p < n ∧ l = (n - 1 + p) % n ∧ r = p ∧
      (l : ℤ) = ((p : ℤ) - 1 + (n : ℤ)) % (n : ℤ) := by
  obtain ⟨hp, hl, hr⟩ := (inv_runSim n s).wf _ hmem
  refine ⟨hp, hl, hr, ?_⟩
  subst hl
  show ((((n - 1 + p) % n : ℕ) : ℤ)) = ((p : ℤ) - 1 + (n : ℤ)) % (n : ℤ)
  rw [Int.natCast_mod]
  have key : ((n - 1 + p : ℕ) : ℤ) = (p : ℤ) - 1 + (n : ℤ) := by omega
  rw [key]

/-- Witness for C4: philosopher 0's `Eating` event on a table of two uses
left chopstick 1 and right chopstick 0. -/
theorem C4_ring_mapping_witness :
    0 < 2 ∧ 1 = (2 - 1 + 0) % 2 ∧ 0 = 0 ∧
      (((1 : ℕ) : ℤ)) = (((0 : ℕ) : ℤ) - 1 + ((2 : ℕ) : ℤ)) % ((2 : ℕ) : ℤ) :=
  C4_ring_mapping 2 [(0, Act.go), (0, Act.go), (0, Act.go)] 0 1 0 (by decide)

/-- C7: the analyzer is total and purely reporting: the feed count it
prints for any id equals the number of that id's `FinishedEating` events
(0 for ids that never ate), the per-philosopher report tabulates exactly
those counts for ids `0..n`, and it declares the simulation correct
exactly when its discrepancy list is empty. -/
theorem C7_analyzer_report (events : List Event) (n i : ℕ) :
    (analyze events).timesFed i = countFinished events i ∧
    reportCounts events n = (List.range n).map (fun j => (j, countFinished events j)) ∧
    (simulationCorrect events = true ↔ (analyze events).discrepancies = []) := by
  refine ⟨analyze_timesFed events i, ?_, ?_⟩
  · unfold reportCounts
    have hfun : (fun j => (j, (analyze events).timesFed j)) =
        (fun j => (j, countFinished events j)) := by
      funext j
      rw [analyze_timesFed]
    rw [hfun]
  · unfold simulationCorrect
    rw [beq_iff_eq, List.length_eq_zero]

/-- C3: conservation.  At any point where philosopher `p`'s thread sits at
the top of its loop (so in particular at the end of any run, after every
thread has joined), `p`'s `Eating` events, `FinishedEating` events and
`times_fed` counter all agree; moreover one `try_to_eat` call appends
either no events (with no counter increment) or exactly one `Eating` and
one `FinishedEating` (with exactly one increment). -/
theorem C3_conservation (n : ℕ) (s : List (ℕ × Act)) (p : ℕ)
    (gl gr : Bool) (L R maxEat seed : ℕ) (tr : List Action)
    (hrest : (runSim n s).phase p = Phase.resting)
    (htr : tryToEatTrace p L R gl gr maxEat seed = some tr) :
    countEating (runSim n s).events p = countFinished (runSim n s).events p ∧
    (runSim n s).fed p = countFinished (runSim n s).events p ∧
    ((tr.filterMap actionEvent = [] ∧ tr.countP isIncAct = 0) ∨
      (tr.filterMap actionEvent =
          [Event.eating p L R, Event.finishedEating p L R] ∧
        tr.countP isIncAct = 1)) := by
  refine ⟨?_, ?_, ?_⟩
  · have hc := (inv_runSim n s).counts p
    rw [hrest] at hc
    simpa [phi1] using hc
  · have hf := (inv_runSim n s).fedCount p
    rw [hrest] at hf
    simpa [phi2] using hf
  · cases gl <;> cases gr
    · unfold tryToEatTrace at htr
      rw [← Option.some_injective _ htr]
      left
      exact ⟨rfl, rfl⟩
    · unfold tryToEatTrace at htr
      rw [← Option.some_injective _ htr]
      left
      exact ⟨rfl, rfl⟩
    · unfold tryToEatTrace at htr
      rw [← Option.some_injective _ htr]
      left
      exact ⟨rfl, rfl⟩
    · unfold tryToEatTrace at htr
      cases hrs : rand_sleep_duration maxEat seed with
      | none =>
          rw [hrs] at htr
          exact Option.noConfusion htr
      | some d =>
          rw [hrs] at htr
          rw [← Option.some_injective _ htr]
          right
          exact ⟨rfl, rfl⟩

/-- Witness for C3: after a complete successful call on a table of two,
philosopher 0 has one `Eating`, one `FinishedEating` and `times_fed` 1. -/
theorem C3_conservation_witness :
    countEating (runSim 2 c3Script).events 0 = countFinished (runSim 2 c3Script).events 0 ∧
    (runSim 2 c3Script).fed 0 = countFinished (runSim 2 c3Script).events 0 ∧
    ((c3Trace.filterMap actionEvent = [] ∧ c3Trace.countP isIncAct = 0) ∨
      (c3Trace.filterMap actionEvent =
          [Event.eating 0 1 0, Event.finishedEating 0 1 0] ∧
        c3Trace.countP isIncAct = 1)) :=
  C3_conservation 2 c3Script 0 true true 1 0 1 0 c3Trace (by decide) (by decide)

/-- C5 counterexample: on a table of three, after philosopher 0 takes both
its chopsticks, philosopher 1's left `try_lock` fails; the claim says
philosopher 1 then attempts nothing further and never holds a resource in
that call, but in the code both `try_lock` calls are issued before either
result is inspected, so philosopher 1 has acquired (and holds) its right
chopstick 1 while in the failed-left state. -/
theorem C5_counterexample :
    (runSim 3 c5Script).phase 1 = Phase.triedBoth false true ∧
    (runSim 3 c5Script).locks 1 = some 1 := by
  exact ⟨by decide, by decide⟩

/-- C5 amended: `try_to_eat` issues `try_lock(left)` first and then
`try_lock(right)` unconditionally — even when the left acquisition failed,
so a resource can be transiently acquired in a failed call; it eats only
when both succeed, and in every failed combination the call appends no
events, releases exactly what it acquired, and acquires nothing else. -/
theorem C5_try_order :
    (∀ (n : ℕ) (c : Config) (p : ℕ),
      p < n → c.phase p = Phase.resting → c.locks (leftChop n p) = none →
      (stepGo n c p).phase p = Phase.triedLeft true ∧
      (stepGo n c p).locks = fupd c.locks (leftChop n p) (some p)) ∧
    (∀ (n : ℕ) (c : Config) (p : ℕ) (gl : Bool),
      p < n → c.phase p = Phase.triedLeft gl → c.locks (rightChop n p) = none →
      (stepGo n c p).phase p = Phase.triedBoth gl true ∧
      (stepGo n c p).locks = fupd c.locks (rightChop n p) (some p)) ∧
    (∀ (n : ℕ) (c : Config) (p : ℕ) (gl gr : Bool),
      p < n → c.phase p = Phase.triedBoth gl gr → (gl = false ∨ gr = false) →
      (stepGo n c p).phase p = Phase.resting ∧
      (stepGo n c p).events = c.events ∧
      (gl = true → gr = false →
        (stepGo n c p).locks = fupd c.locks (leftChop n p) none) ∧
      (gl = false → gr = true →
        (stepGo n c p).locks = fupd c.locks (rightChop n p) none) ∧
      (gl = false → gr = false → (stepGo n c p).locks = c.locks)) := by
  refine ⟨?_, ?_, ?_⟩
  · intro n c p hp hph hl
    unfold stepGo
    rw [if_pos hp, hph, hl]
    exact ⟨fupd_self _ _ _, rfl⟩
  · intro n c p gl hp hph hl
    unfold stepGo
    rw [if_pos hp, hph, hl]
    exact ⟨fupd_self _ _ _, rfl⟩
  · intro n c p gl gr hp hph hfail
    unfold stepGo
    rw [if_pos hp, hph]
    cases gl <;> cases gr
    · exact ⟨fupd_self _ _ _, rfl, fun hh _ => Bool.noConfusion hh,
        fun _ hh => Bool.noConfusion hh, fun _ _ => rfl⟩
    · exact ⟨fupd_self _ _ _, rfl, fun hh _ => Bool.noConfusion hh,
        fun _ _ => rfl, fun _ hh => Bool.noConfusion hh⟩
    · exact ⟨fupd_self _ _ _, rfl, fun _ _ => rfl,
        fun hh _ => Bool.noConfusion hh, fun hh _ => Bool.noConfusion hh⟩
    · rcases hfail with hh | hh <;> exact Bool.noConfusion hh

/-- Witness for the amended C5, on the concrete table of three. -/
theorem C5_try_order_witness :
    ((stepGo 3 initConfig 0).phase 0 = Phase.triedLeft true ∧
      (stepGo 3 initConfig 0).locks = fupd initConfig.locks (leftChop 3 0) (some 0)) ∧
    ((stepGo 3 (runSim 3 c5PreScript) 1).phase 1 = Phase.triedBoth false true ∧
      (stepGo 3 (runSim 3 c5PreScript) 1).locks =
        fupd (runSim 3 c5PreScript).locks (rightChop 3 1) (some 1)) ∧
    ((stepGo 3 (runSim 3 c5Script) 1).phase 1 = Phase.resting ∧
      (stepGo 3 (runSim 3 c5Script) 1).events = (runSim 3 c5Script).events ∧
      (false = true → true = false →
        (stepGo 3 (runSim 3 c5Script) 1).locks =
          fupd (runSim 3 c5Script).locks (leftChop 3 1) none) ∧
      (false = false → true = true →
        (stepGo 3 (runSim 3 c5Script) 1).locks =
          fupd (runSim 3 c5Script).locks (rightChop 3 1) none) ∧
      (false = false → true = false → (stepGo 3 (runSim 3 c5Script) 1).locks =
        (runSim 3 c5Script).locks)) :=
  ⟨C5_try_order.1 3 initConfig 0 (by decide) rfl rfl,
   C5_try_order.2.1 3 (runSim 3 c5PreScript) 1 false (by decide) (by decide) (by decide),
   C5_try_order.2.2 3 (runSim 3 c5Script) 1 false true (by decide) (by decide)
     (Or.inl rfl)⟩

/-- C6: whenever both acquisitions succeed, the call's observable steps
are, in order: append `Eating(p, left, right)`, sleep a whole-millisecond
duration drawn from `[1, maxEat]`, increment `times_fed`, append
`FinishedEating(p, left, right)`, release right, release left. -/
theorem C6_eat_order (p L R maxEat seed : ℕ) (hmax : 1 ≤ maxEat) :
    rand_sleep_duration maxEat seed = some (1 + seed % maxEat) ∧
    1 ≤ 1 + seed % maxEat ∧ 1 + seed % maxEat ≤ maxEat ∧
    tryToEatTrace p L R true true maxEat seed =
      some [Action.tryAcquire L true, Action.tryAcquire R true,
            Action.appendEvent (Event.eating p L R),
            Action.sleepMs (1 + seed % maxEat), Action.incTimesFed p,
            Action.appendEvent (Event.finishedEating p L R),
            Action.release R, Action.release L] := by
  have h0 : ¬ maxEat = 0 := by omega
  refine ⟨?_, ?_, ?_, ?_⟩
  · unfold rand_sleep_duration
    rw [if_neg h0]
  · omega
  · have := Nat.mod_lt seed (show 0 < maxEat by omega)
    omega
  · unfold tryToEatTrace rand_sleep_duration
    rw [if_neg h0]

/-- Witness for C6 at `maxEat = 5`, `seed = 7` (duration 3). -/
theorem C6_eat_order_witness :
    rand_sleep_duration 5 7 = some (1 + 7 % 5) ∧
    1 ≤ 1 + 7 % 5 ∧ 1 + 7 % 5 ≤ 5 ∧
    tryToEatTrace 0 1 0 true true 5 7 =
      some [Action.tryAcquire 1 true, Action.tryAcquire 0 true,
            Action.appendEvent (Event.eating 0 1 0),
            Action.sleepMs (1 + 7 % 5), Action.incTimesFed 0,
            Action.appendEvent (Event.finishedEating 0 1 0),
            Action.release 0, Action.release 1] :=
  C6_eat_order 0 1 0 5 7 (by decide)

/-- C8 counterexample: on a table of one, left and right are the same
chopstick 0; after a full `try_to_eat` pass the first `try_lock` succeeded
but the second failed (`WouldBlock` on the already-held mutex), the call
ends back at the loop top with an empty log and `times_fed` 0 — the single
philosopher did not "successfully self-acquire both" and did not eat. -/
theorem C8_counterexample :
    leftChop 1 0 = rightChop 1 0 ∧
    (runSim 1 [(0, Act.go), (0, Act.go)]).phase 0 = Phase.triedBoth true false ∧
    (runSim 1 [(0, Act.go), (0, Act.go), (0, Act.go)]).phase 0 = Phase.resting ∧
    (runSim 1 [(0, Act.go), (0, Act.go), (0, Act.go)]).events = [] ∧
    (runSim 1 [(0, Act.go), (0, Act.go), (0, Act.go)]).fed 0 = 0 := by
  refine ⟨by decide, by decide, by decide, by decide, by decide⟩

/-- C8 amended: for a table of one the single philosopher's left and right
are the same chopstick 0; the second self-acquisition always fails
(`try_lock` on the mutex it already holds answers `WouldBlock`), so no run
of the simulation ever logs an `Eating` event. -/
theorem C8_single_table (s : List (ℕ × Act)) (c : Config)
    (hph : c.phase 0 = Phase.triedLeft true) (hl : c.locks 0 = some 0) :
    leftChop 1 0 = 0 ∧ rightChop 1 0 = 0 ∧
    ((runSim 1 s).events.filter isEatingEv) = [] ∧
    (stepGo 1 c 0).phase 0 = Phase.triedBoth true false := by
  refine ⟨rfl, rfl, no_eating_n1 s, ?_⟩
  unfold stepGo
  rw [if_pos (by omega : (0 : ℕ) < 1), hph,
    show c.locks (rightChop 1 0) = some 0 from hl]
  show fupd c.phase 0 (Phase.triedBoth true false) 0 = Phase.triedBoth true false
  exact fupd_self _ _ _

/-- Witness for the amended C8: after one step the philosopher holds its
only chopstick, and the next `try_lock` fails. -/
theorem C8_single_table_witness :
    leftChop 1 0 = 0 ∧ rightChop 1 0 = 0 ∧
    ((runSim 1 [(0, Act.go), (0, Act.think), (0, Act.go)]).events.filter isEatingEv) = [] ∧
    (stepGo 1 (runSim 1 [(0, Act.go)]) 0).phase 0 = Phase.triedBoth true false :=
  C8_single_table [(0, Act.go), (0, Act.think), (0, Act.go)]
    (runSim 1 [(0, Act.go)]) (by decide) (by decide)

/-- C9: a failed `now.elapsed()` at the top of a thread's loop makes that
thread log the condition and break out at once: the iteration outcome is
the logged stop, a run whose stream reaches a clock error performs exactly
the cycles before the error and none after, and replacing one thread's
input stream leaves every other thread's outcome unchanged. -/
theorem C9_clock_failure (t : ℕ) (pre rest : List (ClockRes × Bool)) (hb : Bool)
    (ins : List (List (ClockRes × Bool))) (newIn : List (ClockRes × Bool))
    (i j : ℕ) (hij : i ≠ j)
    (hpre : ∀ x ∈ pre, ∃ e, x.1 = ClockRes.ok e ∧ e < t) :
    loopIter t ClockRes.err hb = IterResult.stopClockErrLogged ∧
    actorRun t (pre ++ (ClockRes.err, hb) :: rest) =
      (pre.map Prod.snd, some StopReason.clockErr) ∧
    (simActorsOutcomes t (ins.set i newIn)).get? j =
      (simActorsOutcomes t ins).get? j := by
  refine ⟨rfl, ?_, ?_⟩
  · induction pre with
    | nil => rfl
    | cons x xs ih =>
        obtain ⟨e, hx, he⟩ := hpre x (List.mem_cons_self x xs)
        rcases x with ⟨cr, b⟩
        have hcr : cr = ClockRes.ok e := hx
        subst hcr
        show actorRun t ((ClockRes.ok e, b) :: (xs ++ (ClockRes.err, hb) :: rest)) =
          (((ClockRes.ok e, b) :: xs).map Prod.snd, some StopReason.clockErr)
        unfold actorRun
        rw [show loopIter t (ClockRes.ok e) b = IterResult.cycle b from by
          show (if t ≤ e then IterResult.stopDeadline else IterResult.cycle b) =
            IterResult.cycle b
          rw [if_neg (by omega)]]
        rw [ih (fun y hy => hpre y (List.mem_cons_of_mem _ hy))]
        rfl
  · unfold simActorsOutcomes
    rw [List.get?_map, List.get?_map, List.get?_set_ne _ _ hij]

/-- Witness for C9: two cycles run before the clock error, the tail is
discarded, and thread 1's outcome is untouched by replacing thread 0's
stream with an immediate error. -/
theorem C9_clock_failure_witness :
    loopIter 10 ClockRes.err false = IterResult.stopClockErrLogged ∧
    actorRun 10 ([(ClockRes.ok 1, true), (ClockRes.ok 2, false)] ++
        (ClockRes.err, false) :: [(ClockRes.ok 3, true)]) =
      ([(ClockRes.ok 1, true), (ClockRes.ok 2, false)].map Prod.snd,
        some StopReason.clockErr) ∧
    (simActorsOutcomes 10 (c9Ins.set 0 [(ClockRes.err, true)])).get? 1 =
      (simActorsOutcomes 10 c9Ins).get? 1 :=
  C9_clock_failure 10 [(ClockRes.ok 1, true), (ClockRes.ok 2, false)]
    [(ClockRes.ok 3, true)] false c9Ins [(ClockRes.err, true)] 0 1 (by decide)
    (by
      intro x hx
      rcases List.mem_cons.mp hx with rfl | hx2
      · exact ⟨1, rfl, by omega⟩
      rcases List.mem_cons.mp hx2 with rfl | hx3
      · exact ⟨2, rfl, by omega⟩
      · exact absurd hx3 (List.not_mem_nil x))

/-- C10: for `max_millis ≥ 1`, `rand_sleep_duration` yields a whole number
of milliseconds in `[1, max_millis]` and `think`'s trace is total; for
`max_millis = 0` the range `1..=0` is empty, the call panics (modelled as
`none`), and so do `think` and the eating phase of `try_to_eat` when their
configured maximum is 0. -/
theorem C10_rand_sleep (maxMillis seed p L R : ℕ) (hpos : 1 ≤ maxMillis) :
    rand_sleep_duration maxMillis seed = some (1 + seed % maxMillis) ∧
    1 ≤ 1 + seed % maxMillis ∧ 1 + seed % maxMillis ≤ maxMillis ∧
    thinkTrace p maxMillis seed =
      some [Action.appendEvent (Event.thinking p),
            Action.sleepMs (1 + seed % maxMillis)] ∧
    rand_sleep_duration 0 seed = none ∧
    thinkTrace p 0 seed = none ∧
    tryToEatTrace p L R true true 0 seed = none := by
  have h0 : ¬ maxMillis = 0 := by omega
  refine ⟨?_, ?_, ?_, ?_, rfl, rfl, rfl⟩
  · unfold rand_sleep_duration
    rw [if_neg h0]
  · omega
  · have := Nat.mod_lt seed (show 0 < maxMillis by omega)
    omega
  · unfold thinkTrace rand_sleep_duration
    rw [if_neg h0]
    rfl

/-- Witness for C10 at `max_millis = 4`, `seed = 9` (duration 2). -/
theorem C10_rand_sleep_witness :
    rand_sleep_duration 4 9 = some (1 + 9 % 4) ∧
    1 ≤ 1 + 9 % 4 ∧ 1 + 9 % 4 ≤ 4 ∧
    thinkTrace 2 4 9 =
      some [Action.appendEvent (Event.thinking 2), Action.sleepMs (1 + 9 % 4)] ∧
    rand_sleep_duration 0 9 = none ∧
    thinkTrace 2 0 9 = none ∧
    tryToEatTrace 2 0 1 true true 0 9 = none :=
  C10_rand_sleep 4 9 2 0 1 (by decide)

end DiningPhilosophers
